import Mathlib

/-!
Verification of the ms2md math-normalization subsystem.

Shallow embedding of the math tokenizer (`src/docx2md/utils/math_utils.py`),
the equation-cleanup rules (`MathExtractor._clean_latex` in
`src/docx2md/processors/math_extraction.py`), the XML math-extraction pass
(`MathExtractor._extract_math_from_docx`), the splicer (`MathExtractor._splice`),
and the converter fallback (`src/docx2md/converter.py`).

Strings are modelled as `List Char`.  Python regular-expression operations are
embedded as deterministic scanners specialised to the concrete patterns that
appear in the source; Python's left-to-right, leftmost-match, first-alternative,
lazy/greedy semantics are reproduced for exactly those patterns.
-/

/- ----------------------------------------------------------------------
   Span tokenizer (`math_utils.py`).

   _MATH_PATTERN = r'(\$\$[\s\S]*?\$\$|\$(?!\$).*?(?<!\$)\$)' with re.DOTALL.
   `tokenize_math_spans` walks `finditer` matches, emitting ('text', gap)
   and ('math', match) tokens; `reassemble` concatenates the contents.
   ---------------------------------------------------------------------- -/

inductive TokKind where
  | text
  | math
deriving DecidableEq, Repr

/-- Lazy search for the display-math closer: the leftmost `"$$"` in `l`.
Returns the content before it and the remainder after it
(the `[\s\S]*?\$\$` part of the display alternative). -/
def splitAtDD : List Char → Option (List Char × List Char)
  | [] => none
  | [_] => none
  | c1 :: c2 :: rest =>
      if c1 = '$' ∧ c2 = '$' then some ([], rest)
      else
        match splitAtDD (c2 :: rest) with
        | some p => some (c1 :: p.1, p.2)
        | none => none

/-- Lazy search for the inline-math closer: the leftmost `'$'` in `l` whose
preceding character (tracked in `prev`) is not `'$'`
(the `.*?(?<!\$)\$` part of the inline alternative, `.` matching any
character under re.DOTALL). -/
def splitAtD : Char → List Char → Option (List Char × List Char)
  | _, [] => none
  | prev, c :: rest =>
      if c = '$' ∧ prev ≠ '$' then some ([], rest)
      else
        match splitAtD c rest with
        | some p => some (c :: p.1, p.2)
        | none => none

/-- Result of the display alternative `\$\$[\s\S]*?\$\$` once the two opening
dollars are consumed (`rest` is the input after them). -/
def matchDisplay (rest : List Char) : Option (List Char × List Char) :=
  match splitAtDD rest with
  | some (mid, rest') => some ('$' :: '$' :: (mid ++ ['$', '$']), rest')
  | none => none

/-- Result of the inline alternative `\$(?!\$).*?(?<!\$)\$` once the opening
dollar is consumed (`rest` is the input after it; the tracked previous
character starts as the opening `'$'`). -/
def matchInline (rest : List Char) : Option (List Char × List Char) :=
  match splitAtD '$' rest with
  | some (mid, rest') => some ('$' :: (mid ++ ['$']), rest')
  | none => none

/-- Try to match `_MATH_PATTERN` at the head of `l`: the display alternative
first, then the inline alternative (which cannot fire when a second `'$'`
follows immediately, because of the `(?!\$)` lookahead).
Returns (matched span, remainder). -/
def matchAt (l : List Char) : Option (List Char × List Char) :=
  match l with
  | [] => none
  | c :: rest =>
      if c = '$' then
        if rest.head? = some '$' then matchDisplay rest.tail else matchInline rest
      else none

/-- Emit a pending text token (Python only appends a text token when the gap
is non-empty). -/
def flushText (xs : List Char) : List (TokKind × List Char) :=
  if xs = [] then [] else [(TokKind.text, xs)]

/-- Scanner loop of `tokenize_math_spans`: `acc` holds the pending text gap in
reverse; at each position try `_MATH_PATTERN`, otherwise advance one character
(as `finditer` does).  `fuel` bounds the number of scanning steps; it is
initialised to the buffer length, which is enough because every step consumes
at least one character. -/
def tokenize_go : Nat → List Char → List Char → List (TokKind × List Char)
  | 0, acc, l => flushText (acc.reverse ++ l)
  | _ + 1, acc, [] => flushText acc.reverse
  | fuel + 1, acc, c :: rest =>
      match matchAt (c :: rest) with
      | some (tok, rest') =>
          flushText acc.reverse ++ (TokKind.math, tok) :: tokenize_go fuel [] rest'
      | none => tokenize_go fuel (c :: acc) rest

/-- Function `tokenize_math_spans` (math_utils.py, lines 20-45). -/
def tokenize_math_spans (s : List Char) : List (TokKind × List Char) :=
  tokenize_go s.length [] s

/-- Function `reassemble` (math_utils.py, lines 48-50). -/
def reassemble (tokens : List (TokKind × List Char)) : List Char :=
  (tokens.map Prod.snd).flatten

theorem splitAtDD_eq (l : List Char) :
    ∀ mid rest, splitAtDD l = some (mid, rest) → mid ++ '$' :: '$' :: rest = l := by
  induction l with
  | nil => intro mid rest h; simp [splitAtDD] at h
  | cons c1 cs ih =>
      intro mid rest h
      cases cs with
      | nil => simp [splitAtDD] at h
      | cons c2 rest2 =>
          by_cases h12 : c1 = '$' ∧ c2 = '$'
          · rw [splitAtDD, if_pos h12] at h
            simp only [Option.some.injEq, Prod.mk.injEq] at h
            obtain ⟨h1, h2⟩ := h
            subst h1; subst h2
            simp [h12.1, h12.2]
          · rw [splitAtDD, if_neg h12] at h
            cases hm : splitAtDD (c2 :: rest2) with
            | none => rw [hm] at h; simp at h
            | some p =>
                obtain ⟨m2, r2⟩ := p
                rw [hm] at h
                simp only [Option.some.injEq, Prod.mk.injEq] at h
                obtain ⟨h1, h2⟩ := h
                subst h1; subst h2
                have := ih m2 r2 hm
                simpa using congrArg (fun t => c1 :: t) this

theorem splitAtD_eq (l : List Char) :
    ∀ (prev : Char) (mid rest : List Char),
    splitAtD prev l = some (mid, rest) → mid ++ '$' :: rest = l := by
  induction l with
  | nil => intro prev mid rest h; simp [splitAtD] at h
  | cons c cs ih =>
      intro prev mid rest h
      by_cases hc : c = '$' ∧ prev ≠ '$'
      · rw [splitAtD, if_pos hc] at h
        simp only [Option.some.injEq, Prod.mk.injEq] at h
        obtain ⟨h1, h2⟩ := h
        subst h1; subst h2
        simp [hc.1]
      · rw [splitAtD, if_neg hc] at h
        cases hm : splitAtD c cs with
        | none => rw [hm] at h; simp at h
        | some p =>
            obtain ⟨m2, r2⟩ := p
            rw [hm] at h
            simp only [Option.some.injEq, Prod.mk.injEq] at h
            obtain ⟨h1, h2⟩ := h
            subst h1; subst h2
            have := ih c m2 r2 hm
            simpa using congrArg (fun t => c :: t) this

theorem matchDisplay_eq (l tok rest : List Char) :
    matchDisplay l = some (tok, rest) → tok ++ rest = '$' :: '$' :: l := by
  intro h
  rw [matchDisplay] at h
  cases hm : splitAtDD l with
  | none => rw [hm] at h; simp at h
  | some p =>
      obtain ⟨mid, rest'⟩ := p
      rw [hm] at h
      simp only [Option.some.injEq, Prod.mk.injEq] at h
      obtain ⟨h1, h2⟩ := h
      subst h1; subst h2
      have := splitAtDD_eq l mid rest' hm
      simp [← this]

theorem matchInline_eq (l tok rest : List Char) :
    matchInline l = some (tok, rest) → tok ++ rest = '$' :: l := by
  intro h
  rw [matchInline] at h
  cases hm : splitAtD '$' l with
  | none => rw [hm] at h; simp at h
  | some p =>
      obtain ⟨mid, rest'⟩ := p
      rw [hm] at h
      simp only [Option.some.injEq, Prod.mk.injEq] at h
      obtain ⟨h1, h2⟩ := h
      subst h1; subst h2
      have := splitAtD_eq l '$' mid rest' hm
      simp [← this]

theorem matchAt_eq (l tok rest : List Char) :
    matchAt l = some (tok, rest) → tok ++ rest = l := by
  intro h
  cases l with
  | nil => simp [matchAt] at h
  | cons c cs =>
      rw [matchAt] at h
      by_cases hc : c = '$'
      · rw [if_pos hc] at h
        subst hc
        by_cases hh : cs.head? = some '$'
        · rw [if_pos hh] at h
          cases cs with
          | nil => simp at hh
          | cons c2 rest2 =>
              have hc2 : c2 = '$' := by simpa using hh
              subst hc2
              simp only [List.tail_cons] at h
              exact matchDisplay_eq rest2 tok rest h
        · rw [if_neg hh] at h
          exact matchInline_eq cs tok rest h
      · rw [if_neg hc] at h
        exact absurd h (by simp)

theorem reassemble_flushText (xs : List Char) :
    reassemble (flushText xs) = xs := by
  by_cases h : xs = [] <;> simp [flushText, reassemble, h]

theorem reassemble_append (a b : List (TokKind × List Char)) :
    reassemble (a ++ b) = reassemble a ++ reassemble b := by
  simp [reassemble]

theorem tokenize_go_reassemble (fuel : Nat) :
    ∀ acc l, reassemble (tokenize_go fuel acc l) = acc.reverse ++ l := by
  induction fuel with
  | zero => intro acc l; simp [tokenize_go, reassemble_flushText]
  | succ n ih =>
      intro acc l
      match l with
      | [] => simp [tokenize_go, reassemble_flushText]
      | c :: rest =>
          simp only [tokenize_go]
          match hm : matchAt (c :: rest) with
          | some (tok, rest') =>
              have hsplit := matchAt_eq (c :: rest) tok rest' hm
              rw [reassemble_append]
              have : reassemble ((TokKind.math, tok) :: tokenize_go n [] rest')
                  = tok ++ reassemble (tokenize_go n [] rest') := by
                simp [reassemble]
              rw [this, ih [] rest', reassemble_flushText]
              simp [← hsplit]
          | none =>
              rw [ih (c :: acc) rest]
              simp

/-- C1: for every input string, concatenating the contents of the tokens
returned by `tokenize_math_spans` reproduces the input exactly: the token
sequence is a lossless partition of the buffer (no gaps, no overlaps). -/
theorem C1_tokenizer_roundtrip (s : List Char) :
    reassemble (tokenize_math_spans s) = s := by
  simpa using tokenize_go_reassemble s.length [] s

/-- C7: on the input `"$$a$$"` the tokenizer produces exactly one math token
spanning the whole string (the display alternative takes precedence; it is
never split into two adjacent inline tokens). -/
theorem C7_display_precedence :
    tokenize_math_spans "$$a$$".toList = [(TokKind.math, "$$a$$".toList)] := by
  rfl

/-- C10: an inline math token may span a newline: on `"$a\nb$"` the tokenizer
yields exactly one math token covering the whole string (the `.` of the inline
alternative matches newlines because the pattern is compiled with re.DOTALL),
so a single-dollar span is not confined to one line. -/
theorem C10_inline_spans_newline :
    tokenize_math_spans "$a\nb$".toList = [(TokKind.math, "$a\nb$".toList)] := by
  rfl

/- ----------------------------------------------------------------------
   Python string primitives used by the equation-cleanup code
   (`MathExtractor._clean_latex`, math_extraction.py lines 448-485).
   ---------------------------------------------------------------------- -/

/-- Python's ASCII whitespace class (the characters matched by `\s` and
stripped by `str.strip()` for the ASCII inputs handled here). -/
def isPySpace (c : Char) : Bool :=
  c = ' ' || c = '\t' || c = '\n' || c = '\r' || c = '\x0b' || c = '\x0c'

/-- Python `str.rstrip()`. -/
def pyRstrip (l : List Char) : List Char :=
  (l.reverse.dropWhile isPySpace).reverse

/-- Python `str.lstrip()`. -/
def pyLstrip (l : List Char) : List Char :=
  l.dropWhile isPySpace

/-- Python `str.strip()`. -/
def pyStrip (l : List Char) : List Char :=
  pyLstrip (pyRstrip l)

/-- Python `str.rstrip("\\")`: drop every trailing backslash. -/
def rstripBackslash (l : List Char) : List Char :=
  (l.reverse.dropWhile (fun c => c = '\\')).reverse

/-- Python `str.endswith("\\")`. -/
def endsWithBackslash (l : List Char) : Bool :=
  l.reverse.head? = some '\\'

/-- Python `str.replace(pat, rep)`: replace all non-overlapping occurrences, left to
right.  `fuel` bounds the scanning steps; every step consumes at least one
character of `s`, so `s.length` is enough fuel.  (All patterns used in the
source are non-empty.) -/
def pyReplaceGo : Nat → List Char → List Char → List Char → List Char
  | 0, _, _, s => s
  | _ + 1, _, _, [] => []
  | fuel + 1, pat, rep, c :: rest =>
      if (c :: rest).take pat.length = pat then
        rep ++ pyReplaceGo fuel pat rep ((c :: rest).drop pat.length)
      else c :: pyReplaceGo fuel pat rep rest

/-- Python `str.replace(pat, rep)` with the canonical fuel. -/
def pyReplace (pat rep s : List Char) : List Char :=
  pyReplaceGo s.length pat rep s

/- ----------------------------------------------------------------------
   `_RE_EQ_NUMBER` (math_extraction.py lines 451-458):

     r'[,.\s\\]*\\?#\([0-9]+(?:\.[0-9]+)*[a-z]?\)\s*$'   with re.MULTILINE

   embedded as a deterministic matcher.  Backtracking analysis: the leading
   class `[,.\s\\]*` is greedy, and since `'#'` is not in the class and
   `'\\'` is, a match exists at a position iff the maximal class run there is
   followed directly by `'#'`.  The digit runs are maximal (no following
   construct can consume a digit), and `[a-z]?\)` consumes a lowercase letter
   only when `')'` follows it.  `\s*$` takes the longest whitespace prefix
   whose end is the end of the string or sits directly before a newline
   (MULTILINE `$`).
   ---------------------------------------------------------------------- -/

/-- The character class `[,.\s\\]`. -/
def isEqnClassChar (c : Char) : Bool :=
  c = ',' || c = '.' || c = '\\' || isPySpace c

/-- Pattern `\s*$` under re.MULTILINE: consume the longest whitespace prefix that
ends at end-of-input or directly before a `'\n'`; `none` when no prefix
qualifies. -/
def wsDollar : List Char → Option (List Char)
  | [] => some []
  | c :: rest =>
      if isPySpace c then
        match wsDollar rest with
        | some r => some r
        | none => if c = '\n' then some (c :: rest) else none
      else if c = '\n' then some (c :: rest) else none

/-- Pattern `(?:\.[0-9]+)*`: greedily consume dot-plus-digits groups (a trailing dot
followed by a non-digit stays unconsumed). -/
def dotDigitGroups : Nat → List Char → List Char
  | 0, l => l
  | fuel + 1, l =>
      match l with
      | '.' :: rest =>
          if rest.takeWhile Char.isDigit = [] then l
          else dotDigitGroups fuel (rest.dropWhile Char.isDigit)
      | _ => l

/-- Match the whole `_RE_EQ_NUMBER` pattern at the head of `l`; on success
return the remainder after the matched span. -/
def matchEqNum (l : List Char) : Option (List Char) :=
  match l.dropWhile isEqnClassChar with
  | '#' :: '(' :: rest =>
      if rest.takeWhile Char.isDigit = [] then none
      else
        match dotDigitGroups rest.length (rest.dropWhile Char.isDigit) with
        | ')' :: rest2 => wsDollar rest2
        | c :: ')' :: rest2 => if c.isLower then wsDollar rest2 else none
        | _ => none
  | _ => none

/-- Substitution `_RE_EQ_NUMBER.sub("", ...)`: scan left to right, removing every match
(`fuel` = buffer length; every step consumes at least one character and
every match is non-empty). -/
def subEqNumGo : Nat → List Char → List Char
  | 0, l => l
  | _ + 1, [] => []
  | fuel + 1, c :: rest =>
      match matchEqNum (c :: rest) with
      | some rest' => subEqNumGo fuel rest'
      | none => c :: subEqNumGo fuel rest

/-- Substitution `_RE_EQ_NUMBER.sub("", s)` with the canonical fuel. -/
def subEqNum (l : List Char) : List Char :=
  subEqNumGo l.length l

/-- The bounded `while` loop in `_clean_latex` (limit 20): while the
right-stripped content ends with a backslash, strip trailing whitespace,
then trailing backslashes, then trailing whitespace again. -/
def stripTrailingBackslashLoop : Nat → List Char → List Char
  | 0, content => content
  | limit + 1, content =>
      if endsWithBackslash (pyRstrip content) then
        stripTrailingBackslashLoop limit (pyRstrip (rstripBackslash (pyRstrip content)))
      else content

/-- Literal `"}_{"` (braces written as \x7b/\x7d). -/
def dsubPat : List Char := "\x7d_\x7b".toList

/-- Literal `"}{}_{"`. -/
def dsubRep : List Char := "\x7d\x7b\x7d_\x7b".toList

/-- Literal `"}^{"`. -/
def dsupPat : List Char := "\x7d^\x7b".toList

/-- Literal `"}{}^{"`. -/
def dsupRep : List Char := "\x7d\x7b\x7d^\x7b".toList

/-- Method `MathExtractor._clean_latex` (math_extraction.py lines 463-485):
strip trailing backslash-space artifacts, strip trailing equation numbers,
apply the double-subscript fix `}_{ -> }{}_{` and the double-superscript fix
`}^{ -> }{}^{`, then `strip()`. -/
def clean_latex (content : List Char) : List Char :=
  let c1 := stripTrailingBackslashLoop 20 content
  let c2 := subEqNum c1
  let c3 := pyReplace dsubPat dsubRep c2
  let c4 := pyReplace dsupPat dsupRep c3
  pyStrip c4

/-- C2 counterexample: the sanitizer chain is not idempotent.  On the math
span `"}_{"` one application of the batch-converter equation-level cleanup
`_clean_latex` yields `"}{}_{"`, and a second application changes that
output again, so `sanitize(sanitize(m)) = sanitize(m)` fails at `m = "}_{"`. -/
theorem C2_counterexample :
    clean_latex (clean_latex "\x7d_\x7b".toList) ≠ clean_latex "\x7d_\x7b".toList := by
  decide

/-- C2 (amended): the equation-level cleanup `_clean_latex` is not
idempotent.  Its double-subscript rule `}_{ -> }{}_{` reintroduces the very
substring `}_{` it rewrites, so every rerun inserts one more empty group:
`_clean_latex "}_{" = "}{}_{"` and `_clean_latex "}{}_{" = "}{}{}_{"`, hence
running the chain a second time on its own output is not a no-op. -/
theorem C2_clean_latex_not_idempotent :
    clean_latex "\x7d_\x7b".toList = "\x7d\x7b\x7d_\x7b".toList ∧
    clean_latex "\x7d\x7b\x7d_\x7b".toList = "\x7d\x7b\x7d\x7b\x7d_\x7b".toList ∧
    clean_latex (clean_latex "\x7d_\x7b".toList) ≠ clean_latex "\x7d_\x7b".toList := by
  exact ⟨by decide, by decide, by decide⟩

/- ----------------------------------------------------------------------
   XML math extraction (`MathExtractor._extract_math_from_docx`,
   math_extraction.py lines 114-206).

   The body XML is modelled as a tree of elements and text nodes; tags are
   written in their prefix form (`m:oMathPara` stands for the
   namespace-expanded OMML tag).  The source collects `root.iter(tag)`
   snapshots *before* mutating, so an equation record is created for every
   matching node of the original tree in preorder (including nodes nested
   inside an already-matched node, whose later replacement happens inside an
   already-detached subtree and is therefore invisible in the document);
   the document tree itself replaces every outermost matching node with a
   `<w:r><w:t>placeholder</w:t></w:r>` run.  The source never replaces the
   document root (it has no parent); as in any .docx the root is the
   `w:document` element, never a math node, so the model applies the same
   replacement rule uniformly.
   ---------------------------------------------------------------------- -/

inductive Xml where
  | elem (tag : String) (children : List Xml)
  | text (s : List Char)

inductive MathKind where
  | display
  | inline
deriving DecidableEq, Repr

/-- One entry of the equation registry (the dicts built in
`_extract_math_from_docx`): ``idx``, ``kind``, ``xml`` (the serialised
subtree, kept here as the subtree itself), ``placeholder``. -/
structure EqRec where
  idx : Nat
  kind : MathKind
  xml : Xml
  placeholder : List Char

def mOMathPara : String := "m:oMathPara"

def mOMath : String := "m:oMath"

/-- Function `create_text_run` (docx_xml_utils.py): a `<w:r><w:t>text</w:t></w:r>` run. -/
def create_text_run (ph : List Char) : Xml :=
  Xml.elem "w:r" [Xml.elem "w:t" [Xml.text ph]]

/-- One decimal digit as a character. -/
def digitChar : Nat → Char
  | 0 => '0' | 1 => '1' | 2 => '2' | 3 => '3' | 4 => '4'
  | 5 => '5' | 6 => '6' | 7 => '7' | 8 => '8' | _ => '9'

/-- Decimal digits of `n`, most significant first (`fuel > n` suffices). -/
def natDigitsGo : Nat → Nat → List Char
  | 0, _ => []
  | fuel + 1, n =>
      if n < 10 then [digitChar n]
      else natDigitsGo fuel (n / 10) ++ [digitChar (n % 10)]

/-- Decimal rendering of `n`. -/
def natDigits (n : Nat) : List Char :=
  natDigitsGo (n + 1) n

/-- Python's `f"{n:04d}"`: zero-pad to width 4 (wider numbers unpadded). -/
def pad4 (n : Nat) : List Char :=
  List.replicate (4 - (natDigits n).length) '0' ++ natDigits n

/-- Placeholder `f"@@MATH_DISPLAY_{idx:04d}@@"`. -/
def displayPh (i : Nat) : List Char :=
  "@@MATH_DISPLAY_".toList ++ pad4 i ++ "@@".toList

/-- Placeholder `f"@@MATH_INLINE_{idx:04d}@@"`. -/
def inlinePh (i : Nat) : List Char :=
  "@@MATH_INLINE_".toList ++ pad4 i ++ "@@".toList

/-- Placeholder for a given kind and index. -/
def phOf : MathKind → Nat → List Char
  | MathKind.display, i => displayPh i
  | MathKind.inline, i => inlinePh i

/-- Records for every `t`-tagged node of a forest in preorder, threading the
index counter (models the tail of the pre-collected `root.iter(t)` snapshot
lying inside an already-matched node).  `fuel` bounds the traversal depth
plus breadth; it only ever cuts the walk short, never changes its order. -/
def nestedRecsF : Nat → String → MathKind → Nat → List Xml → List EqRec × Nat
  | 0, _, _, idx, _ => ([], idx)
  | _ + 1, _, _, idx, [] => ([], idx)
  | fuel + 1, t, k, idx, Xml.text _ :: xs => nestedRecsF fuel t k idx xs
  | fuel + 1, t, k, idx, Xml.elem tag cs :: xs =>
      let here : List EqRec :=
        if tag = t then [⟨idx, k, Xml.elem tag cs, phOf k idx⟩] else []
      let idx1 := if tag = t then idx + 1 else idx
      let inner := nestedRecsF fuel t k idx1 cs
      let rest := nestedRecsF fuel t k inner.2 xs
      (here ++ inner.1 ++ rest.1, rest.2)

/-- First pass (lines 143-164): walk the forest in document order; every
`m:oMathPara` node is recorded (together with the matching nodes nested
inside it, as in the pre-collected snapshot) and replaced in the tree by a
placeholder text run. -/
def pass1F : Nat → Nat → List Xml → List Xml × List EqRec × Nat
  | 0, idx, xs => (xs, [], idx)
  | _ + 1, idx, [] => ([], [], idx)
  | fuel + 1, idx, Xml.text s :: xs =>
      let r := pass1F fuel idx xs
      (Xml.text s :: r.1, r.2.1, r.2.2)
  | fuel + 1, idx, Xml.elem tag cs :: xs =>
      if tag = mOMathPara then
        let nested := nestedRecsF fuel mOMathPara MathKind.display (idx + 1) cs
        let r := pass1F fuel nested.2 xs
        (create_text_run (displayPh idx) :: r.1,
         ⟨idx, MathKind.display, Xml.elem tag cs, displayPh idx⟩ :: nested.1 ++ r.2.1,
         r.2.2)
      else
        let c := pass1F fuel idx cs
        let r := pass1F fuel c.2.2 xs
        (Xml.elem tag c.1 :: r.1, c.2.1 ++ r.2.1, r.2.2)

/-- Second pass (lines 166-197): walk the modified forest; every `m:oMath`
node whose ancestor walk finds no `m:oMathPara` (flag `ip`) is recorded
(with any nested matching nodes, as in the snapshot) and replaced by a
placeholder text run. -/
def pass2F : Nat → Bool → Nat → List Xml → List Xml × List EqRec × Nat
  | 0, _, idx, xs => (xs, [], idx)
  | _ + 1, _, idx, [] => ([], [], idx)
  | fuel + 1, ip, idx, Xml.text s :: xs =>
      let r := pass2F fuel ip idx xs
      (Xml.text s :: r.1, r.2.1, r.2.2)
  | fuel + 1, ip, idx, Xml.elem tag cs :: xs =>
      if tag = mOMath ∧ ip = false then
        let nested := nestedRecsF fuel mOMath MathKind.inline (idx + 1) cs
        let r := pass2F fuel ip nested.2 xs
        (create_text_run (inlinePh idx) :: r.1,
         ⟨idx, MathKind.inline, Xml.elem tag cs, inlinePh idx⟩ :: nested.1 ++ r.2.1,
         r.2.2)
      else
        let ip2 := if tag = mOMathPara then true else ip
        let c := pass2F fuel ip2 idx cs
        let r := pass2F fuel ip c.2.2 xs
        (Xml.elem tag c.1 :: r.1, c.2.1 ++ r.2.1, r.2.2)

/-- Method `_extract_math_from_docx`: display pass over the document, then inline
pass over the modified document, indices continuing; returns the sanitized
tree and the concatenated registry. -/
def extract_math (fuel : Nat) (root : Xml) : Xml × List EqRec :=
  let p1 := pass1F fuel 0 [root]
  let p2 := pass2F fuel false p1.2.2 p1.1
  (match p2.1 with
   | [x] => x
   | _ => root,
   p1.2.1 ++ p2.2.1)

/-- A document with one display equation that itself contains an inline
equation, plus one standalone inline equation. -/
def exampleDoc : Xml :=
  Xml.elem "w:document" [Xml.elem "w:body" [
    Xml.elem "w:p" [Xml.elem "m:oMathPara"
      [Xml.elem "m:oMath" [Xml.text "E=mc2".toList]]],
    Xml.elem "w:p" [Xml.elem "m:oMath" [Xml.text "x".toList]]]]

/-- C3: on a document with one display equation containing an inline
equation plus one standalone inline equation, extraction yields exactly two
records: index 0 of kind display, index 1 of kind inline; the inline
equation nested inside the display node is never extracted separately. -/
theorem C3_extraction_ordering :
    (extract_math 10 exampleDoc).2 =
      [⟨0, MathKind.display,
        Xml.elem "m:oMathPara" [Xml.elem "m:oMath" [Xml.text "E=mc2".toList]],
        "@@MATH_DISPLAY_0000@@".toList⟩,
       ⟨1, MathKind.inline, Xml.elem "m:oMath" [Xml.text "x".toList],
        "@@MATH_INLINE_0001@@".toList⟩] := by
  rfl

/-- Documents containing zero native equations: no node of the tree carries
either math tag. -/
inductive MathFree : Xml → Prop where
  | text : ∀ s, MathFree (Xml.text s)
  | elem : ∀ tag cs, tag ≠ mOMathPara → tag ≠ mOMath →
      (∀ x ∈ cs, MathFree x) → MathFree (Xml.elem tag cs)

theorem pass1F_mathfree (fuel : Nat) :
    ∀ idx xs, (∀ x ∈ xs, MathFree x) → pass1F fuel idx xs = (xs, [], idx) := by
  induction fuel with
  | zero => intro idx xs _; rfl
  | succ n ih =>
      intro idx xs h
      cases xs with
      | nil => rfl
      | cons x rest =>
          have hrest : ∀ y ∈ rest, MathFree y :=
            fun y hy => h y (List.mem_cons_of_mem x hy)
          cases x with
          | text s =>
              simp only [pass1F, ih idx rest hrest]
          | elem tag cs =>
              have hx := h _ (List.mem_cons_self _ _)
              cases hx with
              | elem _ _ hpara _ hcs =>
                  simp only [pass1F, if_neg hpara, ih idx cs hcs, ih idx rest hrest,
                    List.nil_append]

theorem pass2F_mathfree (fuel : Nat) :
    ∀ ip idx xs, (∀ x ∈ xs, MathFree x) → pass2F fuel ip idx xs = (xs, [], idx) := by
  induction fuel with
  | zero => intro ip idx xs _; rfl
  | succ n ih =>
      intro ip idx xs h
      cases xs with
      | nil => rfl
      | cons x rest =>
          have hrest : ∀ y ∈ rest, MathFree y :=
            fun y hy => h y (List.mem_cons_of_mem x hy)
          cases x with
          | text s =>
              simp only [pass2F, ih ip idx rest hrest]
          | elem tag cs =>
              have hx := h _ (List.mem_cons_self _ _)
              cases hx with
              | elem _ _ hpara hmath hcs =>
                  simp only [pass2F,
                    if_neg (show ¬(tag = mOMath ∧ ip = false) from fun hh => hmath hh.1),
                    if_neg hpara, ih ip idx cs hcs, ih ip idx rest hrest,
                    List.nil_append]

/-- C9: a document containing zero native equations yields an unmodified
sanitized tree together with an empty equation registry (extraction is a
no-op, not an error).  The guarantee holds for every fuel bound. -/
theorem C9_zero_equations_frame (fuel : Nat) (root : Xml) (h : MathFree root) :
    extract_math fuel root = (root, []) := by
  have hs : ∀ x ∈ [root], MathFree x := by
    intro x hx
    rcases List.mem_singleton.mp hx with rfl
    exact h
  unfold extract_math
  simp only [pass1F_mathfree fuel 0 [root] hs, pass2F_mathfree fuel false 0 [root] hs,
    List.append_nil]

/-- Witness for C9 at a concrete equation-free document. -/
theorem C9_zero_equations_frame_witness :
    extract_math 5 (Xml.elem "w:document" [Xml.elem "w:p" [Xml.text "hi".toList]])
      = (Xml.elem "w:document" [Xml.elem "w:p" [Xml.text "hi".toList]], []) := by
  refine C9_zero_equations_frame 5 _ ?_
  refine MathFree.elem _ _ (by decide) (by decide) ?_
  intro x hx
  rcases List.mem_singleton.mp hx with rfl
  refine MathFree.elem _ _ (by decide) (by decide) ?_
  intro y hy
  rcases List.mem_singleton.mp hy with rfl
  exact MathFree.text _

/- ----------------------------------------------------------------------
   Placeholder structure: decimal rendering is injective, placeholders are
   framed by `@@` and contain no other `'@'`, so no placeholder is an infix
   of a different one.
   ---------------------------------------------------------------------- -/

/-- Numeric value of a digit character. -/
def charVal (c : Char) : Nat := c.toNat - 48

/-- Read a digit string back as a number. -/
def decodeDigits (l : List Char) : Nat :=
  l.foldl (fun a c => 10 * a + charVal c) 0

theorem charVal_digitChar (d : Nat) (h : d < 10) : charVal (digitChar d) = d := by
  interval_cases d <;> decide

theorem digitChar_ne_at (d : Nat) : digitChar d ≠ '@' := by
  match d with
  | 0 => decide
  | 1 => decide
  | 2 => decide
  | 3 => decide
  | 4 => decide
  | 5 => decide
  | 6 => decide
  | 7 => decide
  | 8 => decide
  | n + 9 => exact (show ('9' : Char) ≠ '@' by decide)

theorem foldl_natDigitsGo (fuel : Nat) :
    ∀ n a, n < fuel →
      (natDigitsGo fuel n).foldl (fun a c => 10 * a + charVal c) a
        = a * 10 ^ (natDigitsGo fuel n).length + n := by
  induction fuel with
  | zero => intro n a h; omega
  | succ f ih =>
      intro n a h
      by_cases h10 : n < 10
      · simp only [natDigitsGo, if_pos h10, List.foldl_cons, List.foldl_nil,
          List.length_cons, List.length_nil, pow_one]
        rw [charVal_digitChar n h10]
        omega
      · simp only [natDigitsGo, if_neg h10]
        rw [List.foldl_append]
        have hlt : n / 10 < n := Nat.div_lt_self (by omega) (by omega)
        rw [ih (n / 10) a (by omega)]
        simp only [List.foldl_cons, List.foldl_nil, List.length_append,
          List.length_cons, List.length_nil]
        rw [charVal_digitChar _ (Nat.mod_lt _ (by omega))]
        have hmod := Nat.div_add_mod n 10
        have hpow : (10 : Nat) ^ ((natDigitsGo f (n / 10)).length + (0 + 1))
            = 10 ^ (natDigitsGo f (n / 10)).length * 10 := by
          rw [Nat.zero_add, pow_succ]
        rw [hpow]
        ring_nf
        omega

theorem decode_natDigits (n : Nat) : decodeDigits (natDigits n) = n := by
  have := foldl_natDigitsGo (n + 1) n 0 (by omega)
  simpa [decodeDigits, natDigits] using this

theorem foldl_zeros (k : Nat) :
    (List.replicate k '0').foldl (fun a c => 10 * a + charVal c) 0 = 0 := by
  induction k with
  | zero => rfl
  | succ m ih => simpa [List.replicate, List.foldl_cons, charVal] using ih

theorem decode_pad4 (n : Nat) : decodeDigits (pad4 n) = n := by
  unfold decodeDigits pad4
  rw [List.foldl_append, foldl_zeros]
  exact decode_natDigits n

theorem pad4_inj {i j : Nat} (h : pad4 i = pad4 j) : i = j := by
  have := congrArg decodeDigits h
  rwa [decode_pad4, decode_pad4] at this

theorem natDigitsGo_ne_at (fuel : Nat) : ∀ n, '@' ∉ natDigitsGo fuel n := by
  induction fuel with
  | zero => intro n; simp [natDigitsGo]
  | succ f ih =>
      intro n
      by_cases h10 : n < 10
      · simp only [natDigitsGo, if_pos h10]
        intro h
        rcases List.mem_singleton.mp h with h'
        exact digitChar_ne_at n h'.symm
      · simp only [natDigitsGo, if_neg h10]
        intro h
        rcases List.mem_append.mp h with h | h
        · exact ih _ h
        · rcases List.mem_singleton.mp h with h'
          exact digitChar_ne_at _ h'.symm

theorem count_at_pad4 (i : Nat) : List.count '@' (pad4 i) = 0 := by
  rw [List.count_eq_zero]
  intro h
  unfold pad4 at h
  rcases List.mem_append.mp h with h | h
  · exact absurd (List.eq_of_mem_replicate h) (by decide)
  · exact natDigitsGo_ne_at _ _ h

/-- The `MATH_<KIND>_` middle part of a placeholder. -/
def kindName : MathKind → List Char
  | MathKind.display => "MATH_DISPLAY_".toList
  | MathKind.inline => "MATH_INLINE_".toList

theorem count_at_kindName (k : MathKind) : List.count '@' (kindName k) = 0 := by
  cases k <;> decide

theorem count_at_mid (k : MathKind) (i : Nat) :
    List.count '@' (kindName k ++ pad4 i) = 0 := by
  rw [List.count_append, count_at_kindName, count_at_pad4]

theorem phOf_shape (k : MathKind) (i : Nat) :
    phOf k i = '@' :: '@' :: ((kindName k ++ pad4 i) ++ ['@', '@']) := by
  cases k <;> rfl

theorem count_at_cons2 (x : List Char) :
    List.count '@' ('@' :: '@' :: x) = List.count '@' x + 2 := by
  simp [List.count_cons]

theorem count_at_tail2 (m : List Char) :
    List.count '@' (m ++ ['@', '@']) = List.count '@' m + 2 := by
  simp [List.count_append, List.count_cons]

theorem at_head_nil {s rest1 rest2 : List Char}
    (hs : List.count '@' s = 0)
    (h : s ++ '@' :: rest1 = '@' :: rest2) : s = [] := by
  cases s with
  | nil => rfl
  | cons c s' =>
      exfalso
      have hc : c = '@' := by
        have := congrArg List.head? h
        simpa using this
      subst hc
      simp [List.count_cons] at hs

theorem reverse_ph (m : List Char) :
    ('@' :: '@' :: (m ++ ['@', '@'])).reverse = '@' :: '@' :: (m.reverse ++ ['@', '@']) := by
  simp

theorem at_framed {m1 m2 : List Char}
    (h1 : List.count '@' m1 = 0) (h2 : List.count '@' m2 = 0)
    (hinf : List.IsInfix ('@' :: '@' :: (m1 ++ ['@', '@']))
      ('@' :: '@' :: (m2 ++ ['@', '@']))) :
    m1 = m2 := by
  obtain ⟨s, t, h⟩ := hinf
  have hcnt := congrArg (List.count '@') h
  simp only [List.count_append, count_at_cons2, count_at_tail2, h1, h2] at hcnt
  have hs0 : List.count '@' s = 0 := by omega
  have ht0 : List.count '@' t = 0 := by omega
  have h' : s ++ '@' :: (('@' :: (m1 ++ ['@', '@'])) ++ t)
      = '@' :: ('@' :: (m2 ++ ['@', '@'])) := by
    simpa [List.append_assoc] using h
  have hs : s = [] := at_head_nil hs0 h'
  subst hs
  simp only [List.nil_append] at h
  have hrev := congrArg List.reverse h
  rw [List.reverse_append, reverse_ph, reverse_ph] at hrev
  have h'' : t.reverse ++ '@' :: (('@' :: (m1.reverse ++ ['@', '@'])) ++ [])
      = '@' :: ('@' :: (m2.reverse ++ ['@', '@'])) := by
    simpa [List.append_assoc] using hrev
  have ht : t.reverse = [] :=
    at_head_nil (by rw [List.count_reverse]; exact ht0) h''
  rw [List.reverse_eq_nil_iff] at ht
  subst ht
  simp only [List.append_nil] at h
  injection h with _ h
  injection h with _ h
  exact List.append_cancel_right h

theorem phOf_infix_eq {k1 k2 : MathKind} {i j : Nat}
    (h : List.IsInfix (phOf k1 i) (phOf k2 j)) : k1 = k2 ∧ i = j := by
  rw [phOf_shape, phOf_shape] at h
  have hmid := at_framed (count_at_mid k1 i) (count_at_mid k2 j) h
  cases k1 <;> cases k2
  · exact ⟨rfl, pad4_inj (List.append_cancel_left hmid)⟩
  · exfalso
    have h5 := congrArg (fun l => l.get? 5) hmid
    simp only [kindName] at h5
    rw [List.get?_append (by decide), List.get?_append (by decide)] at h5
    exact absurd h5 (by decide)
  · exfalso
    have h5 := congrArg (fun l => l.get? 5) hmid
    simp only [kindName] at h5
    rw [List.get?_append (by decide), List.get?_append (by decide)] at h5
    exact absurd h5 (by decide)
  · exact ⟨rfl, pad4_inj (List.append_cancel_left hmid)⟩

/- ----------------------------------------------------------------------
   Registry invariant: the records produced by extraction carry consecutive
   indices and placeholders determined by (kind, index).
   ---------------------------------------------------------------------- -/

/-- The records' indices are exactly `lo, lo+1, ..., hi-1` in order, and every
record's placeholder is the canonical one for its kind and index. -/
def RecsOk (recs : List EqRec) (lo hi : Nat) : Prop :=
  recs.map EqRec.idx = List.range' lo (hi - lo) ∧ lo ≤ hi ∧
  ∀ r ∈ recs, r.placeholder = phOf r.kind r.idx

theorem recsOk_nil (lo : Nat) : RecsOk [] lo lo :=
  ⟨by simp [List.range'], Nat.le_refl lo,
   fun r hr => absurd hr (List.not_mem_nil r)⟩

theorem recsOk_single (k : MathKind) (x : Xml) (idx : Nat) :
    RecsOk [⟨idx, k, x, phOf k idx⟩] idx (idx + 1) := by
  refine ⟨?_, by omega, ?_⟩
  · simp [List.range', Nat.add_sub_cancel_left]
  · intro r hr
    rcases List.mem_singleton.mp hr with rfl
    rfl

theorem recsOk_append {r1 r2 : List EqRec} {lo mid hi : Nat}
    (h1 : RecsOk r1 lo mid) (h2 : RecsOk r2 mid hi) : RecsOk (r1 ++ r2) lo hi := by
  obtain ⟨hm1, hle1, hp1⟩ := h1
  obtain ⟨hm2, hle2, hp2⟩ := h2
  refine ⟨?_, by omega, ?_⟩
  · rw [List.map_append, hm1, hm2]
    have hr := List.range'_append lo (mid - lo) (hi - mid) 1
    rw [show lo + 1 * (mid - lo) = mid by omega] at hr
    rw [hr, show hi - mid + (mid - lo) = hi - lo by omega]
  · intro r hr
    rcases List.mem_append.mp hr with h | h
    · exact hp1 r h
    · exact hp2 r h

theorem nestedRecsF_ok (fuel : Nat) :
    ∀ t k idx xs,
      RecsOk (nestedRecsF fuel t k idx xs).1 idx (nestedRecsF fuel t k idx xs).2 := by
  induction fuel with
  | zero => intro t k idx xs; exact recsOk_nil idx
  | succ f ih =>
      intro t k idx xs
      match xs with
      | [] => exact recsOk_nil idx
      | Xml.text s :: rest => simpa [nestedRecsF] using ih t k idx rest
      | Xml.elem tag cs :: rest =>
          by_cases ht : tag = t
          · simp only [nestedRecsF, if_pos ht]
            exact recsOk_append (recsOk_append (recsOk_single k (Xml.elem tag cs) idx)
              (ih t k (idx + 1) cs)) (ih t k _ rest)
          · simp only [nestedRecsF, if_neg ht, List.nil_append]
            exact recsOk_append (ih t k idx cs) (ih t k _ rest)

theorem pass1F_ok (fuel : Nat) :
    ∀ idx xs, RecsOk (pass1F fuel idx xs).2.1 idx (pass1F fuel idx xs).2.2 := by
  induction fuel with
  | zero => intro idx xs; exact recsOk_nil idx
  | succ f ih =>
      intro idx xs
      match xs with
      | [] => exact recsOk_nil idx
      | Xml.text s :: rest => simpa [pass1F] using ih idx rest
      | Xml.elem tag cs :: rest =>
          by_cases ht : tag = mOMathPara
          · simp only [pass1F, if_pos ht]
            exact recsOk_append (recsOk_append
              (recsOk_single MathKind.display (Xml.elem tag cs) idx)
              (nestedRecsF_ok f mOMathPara MathKind.display (idx + 1) cs))
              (ih _ rest)
          · simp only [pass1F, if_neg ht]
            exact recsOk_append (ih idx cs) (ih _ rest)

theorem pass2F_ok (fuel : Nat) :
    ∀ ip idx xs, RecsOk (pass2F fuel ip idx xs).2.1 idx (pass2F fuel ip idx xs).2.2 := by
  induction fuel with
  | zero => intro ip idx xs; exact recsOk_nil idx
  | succ f ih =>
      intro ip idx xs
      match xs with
      | [] => exact recsOk_nil idx
      | Xml.text s :: rest => simpa [pass2F] using ih ip idx rest
      | Xml.elem tag cs :: rest =>
          by_cases ht : tag = mOMath ∧ ip = false
          · simp only [pass2F, if_pos ht]
            exact recsOk_append (recsOk_append
              (recsOk_single MathKind.inline (Xml.elem tag cs) idx)
              (nestedRecsF_ok f mOMath MathKind.inline (idx + 1) cs))
              (ih ip _ rest)
          · simp only [pass2F, if_neg ht]
            exact recsOk_append (ih _ idx cs) (ih ip _ rest)

theorem extract_math_recs_ok (fuel : Nat) (root : Xml) :
    ∃ n, RecsOk (extract_math fuel root).2 0 n := by
  refine ⟨(pass2F fuel false (pass1F fuel 0 [root]).2.2 (pass1F fuel 0 [root]).1).2.2, ?_⟩
  exact recsOk_append (pass1F_ok fuel 0 [root]) (pass2F_ok fuel false _ _)

/-- C6: for every document, the extracted records have pairwise distinct
indices and pairwise distinct placeholders, and no record's placeholder is
an infix (substring) of any other record's placeholder. -/
theorem C6_placeholder_uniqueness (fuel : Nat) (root : Xml) :
    ((extract_math fuel root).2.map EqRec.idx).Nodup ∧
    ((extract_math fuel root).2.map EqRec.placeholder).Nodup ∧
    List.Pairwise (fun r1 r2 =>
        ¬ List.IsInfix r1.placeholder r2.placeholder ∧
        ¬ List.IsInfix r2.placeholder r1.placeholder)
      (extract_math fuel root).2 := by
  obtain ⟨n, hm, _, hp⟩ := extract_math_recs_ok fuel root
  have hnodup : ((extract_math fuel root).2.map EqRec.idx).Nodup := by
    rw [hm]; exact List.nodup_range' _ _
  have hpairIdx : List.Pairwise (fun r1 r2 : EqRec => r1.idx ≠ r2.idx)
      (extract_math fuel root).2 := List.pairwise_map.mp hnodup
  have hinfix : List.Pairwise (fun r1 r2 : EqRec =>
      ¬ List.IsInfix r1.placeholder r2.placeholder ∧
      ¬ List.IsInfix r2.placeholder r1.placeholder) (extract_math fuel root).2 := by
    refine hpairIdx.imp_of_mem ?_
    intro a b ha hb hne
    constructor
    · intro hinf
      rw [hp a ha, hp b hb] at hinf
      exact hne (phOf_infix_eq hinf).2
    · intro hinf
      rw [hp b hb, hp a ha] at hinf
      exact hne ((phOf_infix_eq hinf).2).symm
  have hphNe : List.Pairwise (fun r1 r2 : EqRec => r1.placeholder ≠ r2.placeholder)
      (extract_math fuel root).2 := by
    refine hinfix.imp_of_mem ?_
    intro a b _ _ hni heq
    exact hni.1 (heq ▸ List.infix_refl _)
  exact ⟨hnodup, List.pairwise_map.mpr hphNe, hinfix⟩

/- ----------------------------------------------------------------------
   Splicer (`MathExtractor._splice` and `_is_wide_equation`,
   math_extraction.py lines 384-446, 461, 488-494).
   ---------------------------------------------------------------------- -/

/-- Python `latex.split("\n")`. -/
def splitNl : List Char → List (List Char)
  | [] => [[]]
  | c :: rest =>
      if c = '\n' then [] :: splitNl rest
      else
        match splitNl rest with
        | [] => [[c]]
        | line :: more => (c :: line) :: more

/-- Python `max((len(line) for line in latex.split("\n")), default=0)`. -/
def longestLine (latex : List Char) : Nat :=
  ((splitNl latex).map List.length).foldr Nat.max 0

/-- Literal `"\begin{"`. -/
def beginTok : List Char := "\\begin\x7b".toList

/-- Literal `"matrix}"`. -/
def matrixTok : List Char := "matrix\x7d".toList

/-- Does `r"\\begin\{[pbBvV]?matrix\}"` match at the head of `l`? -/
def matrixAt (l : List Char) : Bool :=
  if l.take 7 = beginTok then
    if (l.drop 7).take 7 = matrixTok then true
    else
      match l.drop 7 with
      | c :: r2 =>
          if (c = 'p' ∨ c = 'b' ∨ c = 'B' ∨ c = 'v' ∨ c = 'V') ∧ r2.take 7 = matrixTok
          then true else false
      | [] => false
  else false

/-- Count `len(re.findall(r"\\begin\{[pbBvV]?matrix\}", latex))`: matches of this
pattern can never overlap (a match's interior contains no backslash), so the
number of positions where the pattern matches equals the findall count. -/
def countMatrix : List Char → Nat
  | [] => 0
  | c :: rest => (if matrixAt (c :: rest) then 1 else 0) + countMatrix rest

/-- Constant `_WIDE_EQ_THRESHOLD` (math_extraction.py line 461). -/
def wideEqThreshold : Nat := 300

/-- Method `MathExtractor._is_wide_equation` (lines 429-446). -/
def is_wide_equation (latex : List Char) : Bool :=
  if wideEqThreshold < longestLine latex then true
  else if 3 ≤ countMatrix latex then true
  else false

/-- The `\resizebox` wrapping built in `_splice` (lines 403-409). -/
def resize_wrap (latex : List Char) : List Char :=
  "\n\n```\x7b=latex\x7d\n\\resizebox\x7b\\linewidth\x7d\x7b!\x7d\x7b$\\displaystyle\n".toList
    ++ latex ++ "\n$\x7d\n```\n\n".toList

/-- The plain display wrapping `f"\n\n$$\n{latex}\n$$\n\n"` (line 411). -/
def display_wrap (latex : List Char) : List Char :=
  "\n\n$$\n".toList ++ latex ++ "\n$$\n\n".toList

/-- The inline wrapping `f"${latex}$"` (line 413). -/
def inline_wrap (latex : List Char) : List Char :=
  '$' :: latex ++ ['$']

/-- The `replacement` computed in the `_splice` loop for non-empty LaTeX. -/
def spliceReplacement (k : MathKind) (latex : List Char) : List Char :=
  match k with
  | MathKind.display =>
      if is_wide_equation latex then resize_wrap latex else display_wrap latex
  | MathKind.inline => inline_wrap latex

/-- One iteration of the `_splice` loop: an empty (or missing) conversion
drops the placeholder, otherwise the placeholder is replaced by the
delimited form. -/
def spliceOne (markdown : List Char) (eq : EqRec) (latex : List Char) : List Char :=
  if latex = [] then pyReplace eq.placeholder [] markdown
  else pyReplace eq.placeholder (spliceReplacement eq.kind latex) markdown

/-- Lookup `eq_latex.get(idx, "")`. -/
def lookupLatex (m : List (Nat × List Char)) (i : Nat) : List Char :=
  match m.find? (fun p => p.1 == i) with
  | some p => p.2
  | none => []

/-- Substitution `re.sub(r'\$\$(?!\n)', "$ $", markdown)` — the adjacent-inline-math fix
(`_fix_adjacent_inline`): a `"$$"` not followed by a newline becomes
`"$ $"`.  `fuel` = buffer length (every step consumes ≥ 1 character). -/
def adjFixGo : Nat → List Char → List Char
  | 0, l => l
  | _ + 1, [] => []
  | fuel + 1, c :: rest =>
      if c = '$' ∧ rest.head? = some '$' ∧ rest.tail.head? ≠ some '\n' then
        '$' :: ' ' :: '$' :: adjFixGo fuel rest.tail
      else c :: adjFixGo fuel rest

/-- The adjacent-inline fix with canonical fuel. -/
def adjFix (l : List Char) : List Char := adjFixGo l.length l

/-- Emit a pending newline run: `re.sub(r"\n{4,}", "\n\n\n", ...)` caps runs
of four or more at three. -/
def nlEmit (n : Nat) : List Char :=
  List.replicate (if 4 ≤ n then 3 else n) '\n'

/-- Scanner for the blank-line collapse, tracking the pending newline run. -/
def collapseNLGo : Nat → List Char → List Char
  | n, [] => nlEmit n
  | n, c :: rest =>
      if c = '\n' then collapseNLGo (n + 1) rest
      else nlEmit n ++ c :: collapseNLGo 0 rest

/-- Substitution `re.sub(r"\n{4,}", "\n\n\n", markdown)`. -/
def collapseNL (l : List Char) : List Char := collapseNLGo 0 l

/-- Method `MathExtractor._splice` (lines 384-423): replace every record's
placeholder (dropping records with missing/empty conversions), then repair
adjacent inline delimiters and collapse excess blank lines. -/
def splice (markdown : List Char) (eqLatex : List (Nat × List Char))
    (equations : List EqRec) : List Char :=
  collapseNL (adjFix (equations.foldl
    (fun md eq => spliceOne md eq (lookupLatex eqLatex eq.idx)) markdown))

/- ----------------------------------------------------------------------
   Splice-drop (C4): replacing a placeholder with "" removes exactly the
   placeholder occurrence when the surrounding prose contains no '@'.
   ---------------------------------------------------------------------- -/

theorem pyReplaceGo_no_match (pat rep : List Char) (hpat : pat.head? = some '@') :
    ∀ fuel s, '@' ∉ s → pyReplaceGo fuel pat rep s = s := by
  intro fuel
  induction fuel with
  | zero => intro s _; rfl
  | succ f ih =>
      intro s hs
      cases s with
      | nil => rfl
      | cons c rest =>
          have hc : c ≠ '@' := fun h => hs (h ▸ List.mem_cons_self c rest)
          have hnm : (c :: rest).take pat.length ≠ pat := by
            intro h
            cases pat with
            | nil => simp at hpat
            | cons p ps =>
                have hcp : c = p := by
                  have := congrArg List.head? h
                  simpa [List.take_succ_cons] using this
                have hp : p = '@' := by simpa using hpat
                exact hc (hcp.trans hp)
          rw [pyReplaceGo, if_neg hnm, ih rest (fun h => hs (List.mem_cons_of_mem c h))]

theorem pyReplaceGo_append (pat rep : List Char) (hpat : pat.head? = some '@') :
    ∀ (pre : List Char) (fuel : Nat) (rest : List Char), '@' ∉ pre →
      pyReplaceGo fuel pat rep (pre ++ rest)
        = pre ++ pyReplaceGo (fuel - pre.length) pat rep rest := by
  intro pre
  induction pre with
  | nil => intro fuel rest _; simp
  | cons c pre' ih =>
      intro fuel rest hpre
      have hc : c ≠ '@' := fun h => hpre (h ▸ List.mem_cons_self c pre')
      have hpre' : '@' ∉ pre' := fun h => hpre (List.mem_cons_of_mem c h)
      cases fuel with
      | zero => simp [pyReplaceGo]
      | succ f =>
          have hnm : (c :: (pre' ++ rest)).take pat.length ≠ pat := by
            intro h
            cases pat with
            | nil => simp at hpat
            | cons p ps =>
                have hcp : c = p := by
                  have := congrArg List.head? h
                  simpa [List.take_succ_cons] using this
                have hp : p = '@' := by simpa using hpat
                exact hc (hcp.trans hp)
          rw [List.cons_append, pyReplaceGo, if_neg hnm, ih f rest hpre']
          simp [Nat.succ_sub_succ]

theorem pyReplaceGo_head (pat rep : List Char) (hne : pat ≠ []) :
    ∀ fuel post,
      pyReplaceGo (fuel + 1) pat rep (pat ++ post) = rep ++ pyReplaceGo fuel pat rep post := by
  intro fuel post
  cases pat with
  | nil => exact absurd rfl hne
  | cons p ps =>
      rw [List.cons_append, pyReplaceGo, if_pos]
      · have hdrop : (p :: (ps ++ post)).drop (p :: ps).length = post :=
          List.drop_left (p :: ps) post
        rw [hdrop]
      · exact List.take_left (p :: ps) post

theorem pyReplace_single (k : MathKind) (i : Nat) (pre post : List Char)
    (hpre : '@' ∉ pre) (hpost : '@' ∉ post) :
    pyReplace (phOf k i) [] (pre ++ phOf k i ++ post) = pre ++ post := by
  have hhead : (phOf k i).head? = some '@' := by rw [phOf_shape]; rfl
  have hne : phOf k i ≠ [] := by rw [phOf_shape]; simp
  unfold pyReplace
  rw [List.append_assoc]
  rw [pyReplaceGo_append _ _ hhead pre _ _ hpre]
  congr 1
  have h1 : 1 ≤ (phOf k i).length := by rw [phOf_shape]; simp
  have hfuel : (pre ++ (phOf k i ++ post)).length - pre.length
      = ((phOf k i).length - 1 + post.length) + 1 := by
    simp only [List.length_append]; omega
  rw [hfuel, pyReplaceGo_head _ _ hne]
  simp only [List.nil_append]
  exact pyReplaceGo_no_match _ _ hhead _ post hpost

theorem adjFixGo_no_dollar : ∀ fuel l, '$' ∉ l → adjFixGo fuel l = l := by
  intro fuel
  induction fuel with
  | zero => intro l _; rfl
  | succ f ih =>
      intro l hl
      cases l with
      | nil => rfl
      | cons c rest =>
          have hc : c ≠ '$' := fun h => hl (h ▸ List.mem_cons_self c rest)
          rw [adjFixGo, if_neg (fun hh => hc hh.1),
              ih rest (fun h => hl (List.mem_cons_of_mem c h))]

theorem adjFix_no_dollar (l : List Char) (h : '$' ∉ l) : adjFix l = l :=
  adjFixGo_no_dollar l.length l h

/-- Newline discipline: scanning `l` with `n` pending newlines never meets a
run of four. -/
def nlRunsOk : Nat → List Char → Bool
  | n, [] => decide (n ≤ 3)
  | n, c :: rest =>
      if c = '\n' then nlRunsOk (n + 1) rest
      else decide (n ≤ 3) && nlRunsOk 0 rest

theorem collapseNLGo_ok : ∀ (l : List Char) (n : Nat), nlRunsOk n l = true →
    collapseNLGo n l = List.replicate n '\n' ++ l := by
  intro l
  induction l with
  | nil =>
      intro n h
      have hle : n ≤ 3 := by simpa [nlRunsOk] using h
      simp [collapseNLGo, nlEmit, if_neg (by omega : ¬ 4 ≤ n)]
  | cons c rest ih =>
      intro n h
      by_cases hc : c = '\n'
      · subst hc
        rw [nlRunsOk, if_pos rfl] at h
        rw [collapseNLGo, if_pos rfl, ih (n + 1) h, List.replicate_succ']
        simp
      · rw [nlRunsOk, if_neg hc] at h
        rw [Bool.and_eq_true] at h
        have hle : n ≤ 3 := by simpa using h.1
        rw [collapseNLGo, if_neg hc, ih 0 h.2]
        simp [nlEmit, if_neg (by omega : ¬ 4 ≤ n)]

theorem collapseNL_ok (l : List Char) (h : nlRunsOk 0 l = true) : collapseNL l = l := by
  have := collapseNLGo_ok l 0 h
  simpa [collapseNL] using this

/-- C4: splicing an equation record whose placeholder-map entry is missing
or empty removes the placeholder with no replacement: on markdown
`pre ++ placeholder ++ post` (prose free of `'@'` and `'$'`, no long newline
runs) the result is exactly `pre ++ post` — the placeholder is gone and no
residual delimiter characters (no stray `'$'`, no placeholder `'@'`) remain.
The drop is ordinary behaviour of the total function `splice`, not an error
path. -/
theorem C4_splice_drop (pre post : List Char) (eq : EqRec)
    (eqLatex : List (Nat × List Char)) (k : MathKind) (i : Nat)
    (hlookup : lookupLatex eqLatex eq.idx = [])
    (hph : eq.placeholder = phOf k i)
    (hpre : '@' ∉ pre) (hpost : '@' ∉ post)
    (hpre2 : '$' ∉ pre) (hpost2 : '$' ∉ post)
    (hnl : nlRunsOk 0 (pre ++ post) = true) :
    splice (pre ++ eq.placeholder ++ post) eqLatex [eq] = pre ++ post ∧
    '$' ∉ splice (pre ++ eq.placeholder ++ post) eqLatex [eq] ∧
    '@' ∉ splice (pre ++ eq.placeholder ++ post) eqLatex [eq] := by
  have hnodollar : '$' ∉ pre ++ post := by
    intro h
    rcases List.mem_append.mp h with h | h
    · exact hpre2 h
    · exact hpost2 h
  have hmain : splice (pre ++ eq.placeholder ++ post) eqLatex [eq] = pre ++ post := by
    unfold splice
    simp only [List.foldl_cons, List.foldl_nil, hlookup]
    simp only [spliceOne, eq_self_iff_true, ite_true]
    rw [hph, pyReplace_single k i pre post hpre hpost]
    rw [adjFix_no_dollar _ hnodollar]
    exact collapseNL_ok _ hnl
  refine ⟨hmain, ?_, ?_⟩
  · rw [hmain]; exact hnodollar
  · rw [hmain]
    intro h
    rcases List.mem_append.mp h with h | h
    · exact hpre h
    · exact hpost h

/-- Witness for C4 at the spec's own example: `"Before @@MATH_INLINE_0000@@
after."` together with an empty map yields `"Before  after."`. -/
theorem C4_splice_drop_witness :
    splice ("Before ".toList ++ phOf MathKind.inline 0 ++ " after.".toList) []
      [⟨0, MathKind.inline, Xml.text [], phOf MathKind.inline 0⟩]
      = "Before  after.".toList :=
  (C4_splice_drop "Before ".toList " after.".toList
    ⟨0, MathKind.inline, Xml.text [], phOf MathKind.inline 0⟩ [] MathKind.inline 0
    rfl rfl (by decide) (by decide) (by decide) (by decide) (by decide)).1

/- ----------------------------------------------------------------------
   Wide-equation routing (C5).
   ---------------------------------------------------------------------- -/

theorem resize_ne_display (latex : List Char) :
    resize_wrap latex ≠ display_wrap latex := by
  intro h
  have h1 : (resize_wrap latex).tail.tail.head? = some '`' := rfl
  rw [h, (show (display_wrap latex).tail.tail.head? = some '$' from rfl)] at h1
  exact absurd h1 (by decide)

/-- C5: the splicer's replacement for a display equation uses the
`\resizebox` scaling wrap exactly when the LaTeX is classified wide: its
longest line exceeds the width threshold (300 characters) or it contains at
least three matrix environments.  A display equation that is not wide is
always emitted in plain `$$ ... $$` surrounded by blank lines, never in the
scaling wrap — and vice versa. -/
theorem C5_wide_routing (latex : List Char) :
    (spliceReplacement MathKind.display latex = resize_wrap latex
        ↔ (wideEqThreshold < longestLine latex ∨ 3 ≤ countMatrix latex)) ∧
    (¬ (wideEqThreshold < longestLine latex ∨ 3 ≤ countMatrix latex) →
      spliceReplacement MathKind.display latex
        = "\n\n$$\n".toList ++ latex ++ "\n$$\n\n".toList) := by
  have hwide : is_wide_equation latex = true
      ↔ (wideEqThreshold < longestLine latex ∨ 3 ≤ countMatrix latex) := by
    unfold is_wide_equation
    by_cases h1 : wideEqThreshold < longestLine latex
    · simp [h1]
    · by_cases h2 : 3 ≤ countMatrix latex
      · simp [h1, h2]
      · simp [h1, h2]
  constructor
  · constructor
    · intro heq
      by_cases hw : is_wide_equation latex = true
      · exact hwide.mp hw
      · exfalso
        have hw' : is_wide_equation latex = false := by
          cases h : is_wide_equation latex
          · rfl
          · exact absurd h hw
        have hd : spliceReplacement MathKind.display latex = display_wrap latex := by
          simp [spliceReplacement, hw']
        rw [hd] at heq
        exact resize_ne_display latex heq.symm
    · intro hcond
      simp [spliceReplacement, hwide.mpr hcond]
  · intro hcond
    have hw' : is_wide_equation latex = false := by
      cases h : is_wide_equation latex
      · rfl
      · exact absurd (hwide.mp h) hcond
    simp [spliceReplacement, hw', display_wrap]

/-- Witness for C5: three matrix environments force the scaling wrap. -/
theorem C5_wide_routing_witness :
    spliceReplacement MathKind.display
        "\\begin\x7bpmatrix\x7d\\begin\x7bpmatrix\x7d\\begin\x7bpmatrix\x7d".toList
      = resize_wrap
        "\\begin\x7bpmatrix\x7d\\begin\x7bpmatrix\x7d\\begin\x7bpmatrix\x7d".toList :=
  ((C5_wide_routing _).1).mpr (Or.inr (by decide))

/- ----------------------------------------------------------------------
   Converter fallback (C8) — `convert_docx_to_markdown`, converter.py
   lines 94-123.
   ---------------------------------------------------------------------- -/

/-- The math-extraction branch of `convert_docx_to_markdown`, with the two
fallible external steps abstracted as `Except`-valued functions: `extract`
is `MathExtractor.extract_and_convert` on the input document and `direct` is
the plain `pypandoc.convert_file` call on the same input path.  On success
the equation-fix and delimiter-fix passes are skipped (flag `true`); when
extraction raises, the exception is caught (and logged as a warning, a side
effect not modelled here) and the original, unmodified input is converted
directly, with the skip flags left `false`. -/
def convert_math_phase {Doc Md Stats Err : Type}
    (extract : Doc → Except Err (Md × Stats))
    (direct : Doc → Except Err Md) (input : Doc) : Except Err (Md × Bool) :=
  match extract input with
  | Except.ok (md, _) => Except.ok (md, true)
  | Except.error _ =>
      match direct input with
      | Except.ok md => Except.ok (md, false)
      | Except.error e => Except.error e

/-- C8: when the math-extraction path fails, the caller falls back to direct
conversion of the same original, unmodified input document; the failure is a
recoverable degradation — conversion still produces output whenever direct
conversion of the input succeeds — and the overall call fails only when the
fallback itself also fails, in which case that error propagates. -/
theorem C8_fallback (Doc Md Stats Err : Type)
    (extract : Doc → Except Err (Md × Stats)) (direct : Doc → Except Err Md)
    (input : Doc) (e : Err) (hfail : extract input = Except.error e) :
    (∀ md, direct input = Except.ok md →
      convert_math_phase extract direct input = Except.ok (md, false)) ∧
    (∀ e', direct input = Except.error e' →
      convert_math_phase extract direct input = Except.error e') := by
  constructor
  · intro md hd
    simp [convert_math_phase, hfail, hd]
  · intro e' hd
    simp [convert_math_phase, hfail, hd]

/-- Witness for C8: a failing extractor falls back to the direct converter's
output on the very same input. -/
theorem C8_fallback_witness :
    convert_math_phase (fun _ : Nat => (Except.error 0 : Except Nat (Nat × Nat)))
      (fun n => Except.ok (n + 1)) 7 = Except.ok (8, false) :=
  (C8_fallback Nat Nat Nat Nat _ _ 7 0 rfl).1 8 rfl
